import Mathlib

/-!
Shallow embedding of the LinUCB contextual-bandit core of the
Python-ML-Engine repository, together with proofs about it.

The embedded code lives in:
  - app/services/rl_model.py      (class LinUCBModel: predict, update, save_model, load_model)
  - app/services/feature_builder.py (class FeatureBuilder: _encode_skills, build_context_vector)
  - app/api/endpoints.py          (train_feedback endpoint)

Modelling conventions:
  - Python floats are modelled as real numbers (exact arithmetic).
  - The two dictionaries `self.A` and `self.b` (keyed by arm-id strings) are
    modelled as functions `String → Option _`; `none` means the key is absent.
  - `numpy` values: a context vector of the store's dimension is `Fin nf → ℝ`,
    an `n×n` matrix is `Matrix (Fin nf) (Fin nf) ℝ`.  Raw vectors crossing the
    API boundary (whose length may be wrong) are modelled as `List ℝ` in the
    `numpy`-level definitions further down.
  - `np.linalg.inv` raises `LinAlgError` exactly on singular matrices (in exact
    arithmetic: determinant not a unit); `np.linalg.pinv` is kept abstract as a
    function parameter `pinv`, since every theorem below is independent of the
    value of the fallback (the fallback branch is proved unreachable on
    reachable states).
  - `pickle.dump`/`pickle.load` round-trip values exactly, so persistence is
    modelled as storing the pair of dictionaries verbatim.
-/

namespace MLEngine

open Matrix

noncomputable section

open Classical

/-- Square matrix of the store's feature dimension (numpy `n×n` array of floats). -/
abbrev Mat (nf : ℕ) := Matrix (Fin nf) (Fin nf) ℝ

/-- Context vector of the store's feature dimension (numpy length-`n` array). -/
abbrev Vec (nf : ℕ) := Fin nf → ℝ

/-- In-memory state of `LinUCBModel` (fields `alpha`, `A`, `b` set in `__init__`).
`A` maps an arm id to its covariance matrix, `b` to its reward vector; a key
absent from the Python dict is `none`. `n_features` is the type index `nf`. -/
structure Store (nf : ℕ) where
  alpha : ℝ
  A : String → Option (Mat nf)
  b : String → Option (Vec nf)

/-- The store as built by `__init__` before `load_model` runs: `A = {}`, `b = {}`. -/
def initStore {nf : ℕ} (alpha : ℝ) : Store nf :=
  ⟨alpha, fun _ => none, fun _ => none⟩

/-- Embeds `LinUCBModel._get_or_init_arm`: if `arm_id not in self.A`, set
`A[arm_id]` to the identity matrix and `b[arm_id]` to the zero vector. -/
def getOrInitArm {nf : ℕ} (s : Store nf) (arm : String) : Store nf :=
  if (s.A arm).isSome then s
  else { s with
    A := Function.update s.A arm (some 1),
    b := Function.update s.b arm (some 0) }

/-- Embeds the `A_inv` computation in `LinUCBModel.predict`: `np.linalg.inv`
succeeds exactly when the matrix is invertible (in exact arithmetic), and on
`LinAlgError` the code falls back to `np.linalg.pinv`, kept abstract as `pinv`. -/
def armAinv {nf : ℕ} (pinv : Mat nf → Mat nf) (A : Mat nf) : Mat nf :=
  if IsUnit A.det then A⁻¹ else pinv A

/-- Embeds `theta = A_inv.dot(self.b[arm_id])` from `LinUCBModel.predict`. -/
def armTheta {nf : ℕ} (Ainv : Mat nf) (bv : Vec nf) : Vec nf :=
  Ainv *ᵥ bv

/-- Embeds `mean = theta.dot(x)` from `LinUCBModel.predict`. -/
def armMean {nf : ℕ} (theta x : Vec nf) : ℝ :=
  theta ⬝ᵥ x

/-- Embeds `uncertainty = self.alpha * np.sqrt(x.dot(A_inv).dot(x))` from
`LinUCBModel.predict`. -/
def armUncertainty {nf : ℕ} (alpha : ℝ) (Ainv : Mat nf) (x : Vec nf) : ℝ :=
  alpha * Real.sqrt ((x ᵥ* Ainv) ⬝ᵥ x)

/-- One entry of the list returned by `LinUCBModel.predict`: the Python dict
with keys `"id"` (field `arm`), `"score"` and `"confidence"`. -/
structure ScoreResult where
  arm : String
  score : ℝ
  confidence : ℝ

/-- The per-arm body of the loop in `LinUCBModel.predict`, applied to a store in
which the arm has already been initialised (`predict` calls `_get_or_init_arm`
first, so the `getD` defaults are never the value actually read; see the
key-set invariant proved below). `1e-5` is the literal in the source. -/
def scoreArm {nf : ℕ} (pinv : Mat nf → Mat nf) (s : Store nf) (arm : String) (x : Vec nf) :
    ScoreResult :=
  let A := (s.A arm).getD 1
  let bv := (s.b arm).getD 0
  let Ainv := armAinv pinv A
  let theta := armTheta Ainv bv
  let mean := armMean theta x
  let unc := armUncertainty s.alpha Ainv x
  ⟨arm, mean + unc, 1 / (unc + 1 / 100000)⟩

/-- One iteration of the `for i, arm_id in enumerate(arm_ids)` loop in
`LinUCBModel.predict`: initialise the arm if needed, then append its score. -/
def predictStep {nf : ℕ} (pinv : Mat nf → Mat nf)
    (acc : Store nf × List ScoreResult) (p : String × Vec nf) :
    Store nf × List ScoreResult :=
  let s' := getOrInitArm acc.1 p.1
  (s', acc.2 ++ [scoreArm pinv s' p.1 p.2])

/-- The whole loop of `LinUCBModel.predict` before the final `sorted(...)` call:
the mutated store together with the unsorted `scores` list.  The paired
iteration over `arm_ids` and `context_vectors[i]` is modelled with `zip`
(the two sequences have equal length at every call site). -/
def predictRaw {nf : ℕ} (pinv : Mat nf → Mat nf) (s : Store nf)
    (pairs : List (String × Vec nf)) : Store nf × List ScoreResult :=
  pairs.foldl (predictStep pinv) (s, [])

/-- The comparison used to embed `sorted(scores, key=lambda k: k['score'],
reverse=True)`: Python's sort is stable, and with `reverse=True` it keeps `a`
before `b` exactly when `a['score'] >= b['score']`. -/
def scoreDesc (a b : ScoreResult) : Bool :=
  decide (b.score ≤ a.score)

/-- Embeds `LinUCBModel.predict`: run the scoring loop, then return the scores
sorted by `score` descending (stable). Mutates the store via
`_get_or_init_arm`, hence also returns the new store. -/
def predict {nf : ℕ} (pinv : Mat nf → Mat nf) (s : Store nf)
    (arm_ids : List String) (context_vectors : List (Vec nf)) :
    Store nf × List ScoreResult :=
  let r := predictRaw pinv s (arm_ids.zip context_vectors)
  (r.1, r.2.mergeSort scoreDesc)

/-- Embeds the in-memory effect of `LinUCBModel.update`: initialise the arm if
needed, then `A[arm] += np.outer(x, x)` and `b[arm] += reward * x`.
(`np.outer x x` is `Matrix.vecMulVec x x`.)  The `save_model` call at the end
of `update` is modelled at the `World` level below. -/
def updateArm {nf : ℕ} (s : Store nf) (arm : String) (x : Vec nf) (reward : ℝ) :
    Store nf :=
  let s' := getOrInitArm s arm
  { s' with
    A := Function.update s'.A arm (some (((s'.A arm).getD 1) + Matrix.vecMulVec x x)),
    b := Function.update s'.b arm (some (((s'.b arm).getD 0) + reward • x)) }

/-- The content of the pickle file written by `LinUCBModel.save_model`:
the dict with keys `'A'` and `'b'`, stored exactly. -/
structure Blob (nf : ℕ) where
  A : String → Option (Mat nf)
  b : String → Option (Vec nf)

/-- Embeds `LinUCBModel.save_model`: pickle the pair of dicts verbatim. -/
def saveModel {nf : ℕ} (s : Store nf) : Blob nf :=
  ⟨s.A, s.b⟩

/-- Embeds `LinUCBModel.load_model`: if the checkpoint file exists (`some`),
replace `self.A` and `self.b` with its contents; otherwise keep the current
state.  A failed (corrupt) load also keeps the current state, which is the
same `none` branch. -/
def loadModel {nf : ℕ} (s : Store nf) (d : Option (Blob nf)) : Store nf :=
  match d with
  | none => s
  | some blob => { s with A := blob.A, b := blob.b }

/-- The model state together with the checkpoint file on disk (`model_path`). -/
structure World (nf : ℕ) where
  store : Store nf
  disk : Option (Blob nf)

/-- Embeds `LinUCBModel.__init__`: set `alpha`, `A = {}`, `b = {}`, then call
`load_model`, which reads the checkpoint file when it exists. -/
def worldInit {nf : ℕ} (alpha : ℝ) (d : Option (Blob nf)) : World nf :=
  ⟨loadModel (initStore alpha) d, d⟩

/-- Embeds a call to `predict` at the process level: the store is mutated
(lazy arm creation), the disk is not written. -/
def worldPredict {nf : ℕ} (pinv : Mat nf → Mat nf) (w : World nf)
    (arm_ids : List String) (context_vectors : List (Vec nf)) :
    World nf × List ScoreResult :=
  let r := predict pinv w.store arm_ids context_vectors
  (⟨r.1, w.disk⟩, r.2)

/-- Embeds a call to `update` at the process level: mutate the arm, then
`save_model` overwrites the checkpoint file with the new state. -/
def worldUpdate {nf : ℕ} (w : World nf) (arm : String) (x : Vec nf) (reward : ℝ) :
    World nf :=
  let s' := updateArm w.store arm x reward
  ⟨s', some (saveModel s')⟩

/-- The states the process can be in: a fresh start (no checkpoint file), any
sequence of `predict` and `update` calls, and process restarts that reload
whatever checkpoint the previous life wrote.  The exploration coefficient is
a configured non-negative real (spec section 6). -/
inductive Reachable {nf : ℕ} : World nf → Prop where
  | init (alpha : ℝ) (h : 0 ≤ alpha) : Reachable (worldInit alpha none)
  | predictStep (pinv : Mat nf → Mat nf) (w : World nf)
      (arm_ids : List String) (context_vectors : List (Vec nf))
      (hw : Reachable w) : Reachable (worldPredict pinv w arm_ids context_vectors).1
  | updateStep (w : World nf) (arm : String) (x : Vec nf) (reward : ℝ)
      (hw : Reachable w) : Reachable (worldUpdate w arm x reward)
  | restart (alpha : ℝ) (h : 0 ≤ alpha) (w : World nf) (hw : Reachable w) :
      Reachable (worldInit alpha w.disk)

/-- The state invariant maintained by every operation of `LinUCBModel`:
the exploration coefficient is non-negative (configured, spec section 6),
`A` and `b` have the same key set, and every stored covariance matrix is
symmetric positive-definite. -/
def StoreInv {nf : ℕ} (s : Store nf) : Prop :=
  0 ≤ s.alpha ∧ (∀ arm, (s.A arm).isSome ↔ (s.b arm).isSome)
    ∧ ∀ arm M, s.A arm = some M → M.PosDef

/-- The corresponding invariant for a pickled checkpoint. -/
def BlobInv {nf : ℕ} (d : Blob nf) : Prop :=
  (∀ arm, (d.A arm).isSome ↔ (d.b arm).isSome)
    ∧ ∀ arm M, d.A arm = some M → M.PosDef

/-- Embeds `FeatureBuilder._encode_skills`: `1.0` if `task_skills` is empty,
else the number of entries of the `task_skills` list that occur in
`emp_skills`, divided by the length of the `task_skills` list.  Note the count
runs over the list (with multiplicity), not over the set of skills. -/
def encodeSkills (task_skills emp_skills : List String) : ℝ :=
  if task_skills = [] then 1
  else ((task_skills.countP (fun s => decide (s ∈ emp_skills)) : ℕ) : ℝ) /
    ((task_skills.length : ℕ) : ℝ)

/-- The skill-overlap feature as worded by the spec (section 4.1): the fraction
of the task's required-skill SET present in the candidate's skill set,
`1.0` when the task requires no skills.  This definition follows the spec's
words, for comparison against `encodeSkills` which embeds the source. -/
def specSkillOverlap (required held : List String) : ℝ :=
  if required.toFinset = ∅ then 1
  else (((required.toFinset ∩ held.toFinset).card : ℕ) : ℝ) /
    ((required.toFinset.card : ℕ) : ℝ)

/-- Fields of `TaskFeatures` used by the encoder (schemas.py documents
`complexity` as an integer in 1..10 and `deadline_hours` as a non-negative
hour count). -/
structure TaskFeatures where
  title : String
  priority : String
  complexity : ℕ
  deadline_hours : ℕ
  skills_required : List String

/-- Fields of `EmployeeCandidate` used by the encoder (the capacity and
reporting fields of schemas.py are not read by `build_context_vector`). -/
structure EmployeeCandidate where
  id : String
  current_load : ℕ
  skills : List String
  role_level : String

/-- The `self.priority_map` dict of `FeatureBuilder.__init__`. -/
def priorityMap : List (String × ℝ) :=
  [("Low", 0.2), ("Medium", 0.5), ("High", 0.8), ("Critical", 1)]

/-- The `self.role_map` dict of `FeatureBuilder.__init__`. -/
def roleMap : List (String × ℝ) :=
  [("Intern", 0.2), ("Junior", 0.4), ("Mid", 0.6), ("Senior", 0.8), ("Lead", 1)]

/-- Embeds `FeatureBuilder.build_context_vector`: the fixed 6-feature contract
`[Priority, Complexity, Deadline_Inv, Load_Inv, Role, Skill_Match]`, with
`dict.get(key, 0.5)` modelled by `lookup` with default `0.5`. -/
def buildContextVector (task : TaskFeatures) (emp : EmployeeCandidate) : Vec 6 :=
  let f_priority := (priorityMap.lookup task.priority).getD 0.5
  let f_complexity := (task.complexity : ℝ) / 10
  let f_deadline := 1 / ((task.deadline_hours : ℝ) + 1)
  let f_load := 1 / ((emp.current_load : ℝ) + 1)
  let f_role := (roleMap.lookup emp.role_level).getD 0.5
  let f_match := encodeSkills task.skills_required emp.skills
  ![f_priority, f_complexity, f_deadline, f_load, f_role, f_match]

/-- Request body of the `/train` endpoint (`FeedbackRequest` in schemas.py):
note it carries no feature vector. -/
structure FeedbackRequest where
  recommendation_id : String
  selected_employee_id : String
  actual_reward : ℝ

/-- A row of the external `decision_logs` table, restricted to the columns the
`/train` endpoint writes. -/
structure DecisionLog where
  id : String
  final_action_taken : Option String
  reward_value : Option ℝ

/-- Embeds the `train_feedback` handler in endpoints.py: it updates the
`decision_logs` row matching the recommendation id and returns
`"success"` — it never touches the model (`World`), as the source itself
notes: for the prototype it only acknowledges receipt. -/
def trainFeedback {nf : ℕ} (w : World nf) (logs : List DecisionLog)
    (req : FeedbackRequest) : World nf × List DecisionLog × String :=
  let logs' := logs.map fun l =>
    if l.id = req.recommendation_id then
      { l with
        final_action_taken := some req.selected_employee_id,
        reward_value := some req.actual_reward }
    else l
  (w, logs', "success")

/-- The only error numpy raises in the embedded fragments: `ValueError` from a
1-D dot product of unequal lengths or from a shape-incompatible broadcast. -/
inductive NumpyError where
  | valueError

/-- Reads a raw list as a vector of the store's dimension (used only when the
lengths agree, so the `getD` default is never taken). -/
def listToVec {nf : ℕ} (x : List ℝ) : Vec nf :=
  fun i => x.getD i.1 0

/-- The per-arm scoring body of `LinUCBModel.predict` applied to a raw (possibly
wrong-length) numpy vector.  When `len(x) = n` this is exactly `scoreArm`; for
any other length, `theta.dot(x)` — a dot product of 1-D arrays of unequal
lengths — raises an untyped `ValueError` (and `x.dot(A_inv)` likewise). -/
def numpyScoreArm {nf : ℕ} (pinv : Mat nf → Mat nf) (s : Store nf) (arm : String)
    (x : List ℝ) : Except NumpyError ScoreResult :=
  if x.length = nf then Except.ok (scoreArm pinv s arm (listToVec x))
  else Except.error NumpyError.valueError

/-- `LinUCBModel.update` applied to a raw (possibly wrong-length) numpy vector,
following numpy's broadcasting rules for the two in-place additions:
`A[arm] += np.outer(x, x)` adds an `m×m` array to an `n×n` array, which
succeeds when `m = n` (elementwise) or `m = 1` (the single entry broadcasts to
every entry of `A`) and raises `ValueError` otherwise; then
`b[arm] += reward * x` adds a length-`m` array to a length-`n` array, which in
the surviving `m = 1` case broadcasts the single entry over `b`. -/
def numpyUpdateArm {nf : ℕ} (s : Store nf) (arm : String) (x : List ℝ)
    (reward : ℝ) : Except NumpyError (Store nf) :=
  if x.length = nf then Except.ok (updateArm s arm (listToVec x) reward)
  else if x.length = 1 then
    let s' := getOrInitArm s arm
    Except.ok
      { s' with
        A := Function.update s'.A arm
          (some (((s'.A arm).getD 1) + Matrix.of fun _ _ => x.headD 0 * x.headD 0)),
        b := Function.update s'.b arm
          (some (fun i => ((s'.b arm).getD 0) i + reward * x.headD 0)) }
  else Except.error NumpyError.valueError

/-- The loop of `LinUCBModel.predict` over raw numpy vectors: an exception
raised at any iteration aborts the whole call. -/
def numpyPredictGo {nf : ℕ} (pinv : Mat nf → Mat nf) (s : Store nf) :
    List (String × List ℝ) → Except NumpyError (Store nf × List ScoreResult)
  | [] => Except.ok (s, [])
  | p :: rest =>
    let s' := getOrInitArm s p.1
    match numpyScoreArm pinv s' p.1 p.2 with
    | Except.error e => Except.error e
    | Except.ok sc =>
      match numpyPredictGo pinv s' rest with
      | Except.error e => Except.error e
      | Except.ok r => Except.ok (r.1, sc :: r.2)

/-- `LinUCBModel.predict` over raw numpy vectors: run the loop, then sort. -/
def numpyPredict {nf : ℕ} (pinv : Mat nf → Mat nf) (s : Store nf)
    (arm_ids : List String) (xs : List (List ℝ)) :
    Except NumpyError (Store nf × List ScoreResult) :=
  match numpyPredictGo pinv s (arm_ids.zip xs) with
  | Except.error e => Except.error e
  | Except.ok r => Except.ok (r.1, r.2.mergeSort scoreDesc)

end

/-!  Helper lemmas about the store operations. -/

namespace MLEngineLemmas

open MLEngine

lemma getOrInitArm_A_self {nf : ℕ} (s : Store nf) (arm : String) :
    (getOrInitArm s arm).A arm = some ((s.A arm).getD 1) := by
  unfold getOrInitArm
  split
  · rename_i h
    obtain ⟨M, hM⟩ := Option.isSome_iff_exists.mp h
    simp [hM]
  · rename_i h
    rw [Option.not_isSome_iff_eq_none] at h
    simp [h, Function.update_same]

lemma getOrInitArm_b_self_of_none {nf : ℕ} (s : Store nf) (arm : String)
    (h : s.A arm = none) : (getOrInitArm s arm).b arm = some 0 := by
  unfold getOrInitArm
  rw [h]
  simp [Function.update_same]

lemma getOrInitArm_of_isSome {nf : ℕ} {s : Store nf} {arm : String}
    (h : (s.A arm).isSome) : getOrInitArm s arm = s := by
  unfold getOrInitArm
  rw [if_pos h]

lemma getOrInitArm_A_ne {nf : ℕ} (s : Store nf) (arm j : String) (hj : j ≠ arm) :
    (getOrInitArm s arm).A j = s.A j := by
  unfold getOrInitArm
  split
  · rfl
  · simp [Function.update_noteq hj]

lemma getOrInitArm_b_ne {nf : ℕ} (s : Store nf) (arm j : String) (hj : j ≠ arm) :
    (getOrInitArm s arm).b j = s.b j := by
  unfold getOrInitArm
  split
  · rfl
  · simp [Function.update_noteq hj]

lemma getOrInitArm_alpha {nf : ℕ} (s : Store nf) (arm : String) :
    (getOrInitArm s arm).alpha = s.alpha := by
  unfold getOrInitArm
  split <;> rfl

lemma updateArm_A_self {nf : ℕ} (s : Store nf) (arm : String) (x : Vec nf) (r : ℝ) :
    (updateArm s arm x r).A arm = some (((s.A arm).getD 1) + Matrix.vecMulVec x x) := by
  unfold updateArm
  simp [Function.update_same, getOrInitArm_A_self]

lemma updateArm_alpha {nf : ℕ} (s : Store nf) (arm : String) (x : Vec nf) (r : ℝ) :
    (updateArm s arm x r).alpha = s.alpha := by
  unfold updateArm
  simp [getOrInitArm_alpha]

lemma vecMulVec_mulVec_eq {nf : ℕ} (x v : Vec nf) :
    Matrix.vecMulVec x x *ᵥ v = (x ⬝ᵥ v) • x := by
  funext i
  simp only [Matrix.mulVec, dotProduct, Matrix.vecMulVec_apply, Pi.smul_apply,
    smul_eq_mul, Finset.sum_mul]
  exact Finset.sum_congr rfl fun j _ => by ring

lemma posSemidef_vecMulVec {nf : ℕ} (x : Vec nf) :
    (Matrix.vecMulVec x x).PosSemidef := by
  constructor
  · ext i j
    simp [Matrix.conjTranspose_apply, Matrix.vecMulVec_apply, mul_comm]
  · intro v
    have hsv : star v = v := by
      funext i
      simp
    rw [vecMulVec_mulVec_eq, hsv, dotProduct_smul, smul_eq_mul, dotProduct_comm]
    exact mul_self_nonneg _

lemma storeInv_getOrInitArm {nf : ℕ} {s : Store nf} (hs : StoreInv s) (arm : String) :
    StoreInv (getOrInitArm s arm) := by
  obtain ⟨ha, hsync, hpos⟩ := hs
  unfold getOrInitArm
  split
  · exact ⟨ha, hsync, hpos⟩
  · refine ⟨ha, ?_, ?_⟩
    · intro j
      by_cases hj : j = arm
      · subst hj
        simp [Function.update_same]
      · simp only [Function.update_noteq hj]
        exact hsync j
    · intro j M hM
      by_cases hj : j = arm
      · subst hj
        rw [show ({ s with
              A := Function.update s.A j (some 1),
              b := Function.update s.b j (some 0) } : Store nf).A j
            = some (1 : Mat nf) from by simp [Function.update_same]] at hM
        cases hM
        exact Matrix.PosDef.one
      · rw [show ({ s with
              A := Function.update s.A arm (some 1),
              b := Function.update s.b arm (some 0) } : Store nf).A j
            = s.A j from by simp [Function.update_noteq hj]] at hM
        exact hpos j M hM

lemma getOrInitArm_A_self_posDef {nf : ℕ} {s : Store nf} (hs : StoreInv s)
    (arm : String) : (((getOrInitArm s arm).A arm).getD 1).PosDef := by
  have hs' := storeInv_getOrInitArm hs arm
  have h := getOrInitArm_A_self s arm
  exact hs'.2.2 arm _ (by rw [h]; rfl)

lemma storeInv_updateArm {nf : ℕ} {s : Store nf} (hs : StoreInv s) (arm : String)
    (x : Vec nf) (r : ℝ) : StoreInv (updateArm s arm x r) := by
  have hs' := storeInv_getOrInitArm hs arm
  obtain ⟨ha, hsync, hpos⟩ := hs'
  unfold updateArm
  refine ⟨ha, ?_, ?_⟩
  · intro j
    by_cases hj : j = arm
    · subst hj
      simp [Function.update_same]
    · simp only [Function.update_noteq hj]
      exact hsync j
  · intro j M hM
    by_cases hj : j = arm
    · subst hj
      simp only [Function.update_same] at hM
      cases hM
      exact Matrix.PosDef.add_posSemidef
        (getOrInitArm_A_self_posDef hs j) (posSemidef_vecMulVec x)
    · simp only [Function.update_noteq hj] at hM
      exact hpos j M hM

lemma predictRaw_fst {nf : ℕ} (pinv : Mat nf → Mat nf)
    (pairs : List (String × Vec nf)) (s : Store nf) (acc : List ScoreResult) :
    (pairs.foldl (predictStep pinv) (s, acc)).1
      = pairs.foldl (fun t p => getOrInitArm t p.1) s := by
  induction pairs generalizing s acc with
  | nil => rfl
  | cons p rest ih =>
    rw [List.foldl_cons, List.foldl_cons]
    exact ih (getOrInitArm s p.1) _

lemma storeInv_foldl_getOrInit {nf : ℕ} (pairs : List (String × Vec nf))
    {s : Store nf} (hs : StoreInv s) :
    StoreInv (pairs.foldl (fun t p => getOrInitArm t p.1) s) := by
  induction pairs generalizing s with
  | nil => exact hs
  | cons p rest ih =>
    rw [List.foldl_cons]
    exact ih (storeInv_getOrInitArm hs p.1)

lemma foldl_getOrInit_A {nf : ℕ} (pairs : List (String × Vec nf)) (s : Store nf)
    (arm : String) :
    ((pairs.foldl (fun t p => getOrInitArm t p.1) s).A arm = s.A arm
        ∧ (pairs.foldl (fun t p => getOrInitArm t p.1) s).b arm = s.b arm)
    ∨ (s.A arm = none
        ∧ (pairs.foldl (fun t p => getOrInitArm t p.1) s).A arm = some 1
        ∧ (pairs.foldl (fun t p => getOrInitArm t p.1) s).b arm = some 0) := by
  induction pairs generalizing s with
  | nil => exact Or.inl ⟨rfl, rfl⟩
  | cons p rest ih =>
    rw [List.foldl_cons]
    rcases ih (getOrInitArm s p.1) with ⟨h1, h2⟩ | ⟨h0, h1, h2⟩
    · by_cases hj : arm = p.1
      · subst hj
        by_cases hA : (s.A p.1).isSome
        · exact Or.inl ⟨h1.trans (by rw [getOrInitArm_of_isSome hA]),
            h2.trans (by rw [getOrInitArm_of_isSome hA])⟩
        · rw [Option.not_isSome_iff_eq_none] at hA
          refine Or.inr ⟨hA, ?_, ?_⟩
          · rw [h1, getOrInitArm_A_self, hA]
            rfl
          · rw [h2, getOrInitArm_b_self_of_none s p.1 hA]
      · rw [getOrInitArm_A_ne s p.1 arm hj] at h1
        rw [getOrInitArm_b_ne s p.1 arm hj] at h2
        exact Or.inl ⟨h1, h2⟩
    · by_cases hj : arm = p.1
      · subst hj
        rw [getOrInitArm_A_self] at h0
        cases h0
      · rw [getOrInitArm_A_ne s p.1 arm hj] at h0
        exact Or.inr ⟨h0, h1, h2⟩

lemma foldl_getOrInit_mem_isSome {nf : ℕ} (pairs : List (String × Vec nf))
    (s : Store nf) (p : String × Vec nf) (hp : p ∈ pairs) :
    ((pairs.foldl (fun t q => getOrInitArm t q.1) s).A p.1).isSome := by
  induction pairs generalizing s with
  | nil => cases hp
  | cons q rest ih =>
    rw [List.foldl_cons]
    rcases List.mem_cons.mp hp with rfl | hmem
    · rcases foldl_getOrInit_A rest (getOrInitArm s p.1) p.1 with ⟨h1, -⟩ | ⟨-, h1, -⟩
      · rw [h1, getOrInitArm_A_self]
        rfl
      · rw [h1]
        rfl
    · exact ih _ hmem

lemma worldPredict_fst_store {nf : ℕ} (pinv : Mat nf → Mat nf) (w : World nf)
    (arm_ids : List String) (context_vectors : List (Vec nf)) :
    (worldPredict pinv w arm_ids context_vectors).1.store
      = (arm_ids.zip context_vectors).foldl (fun t p => getOrInitArm t p.1) w.store := by
  show (predictRaw pinv w.store (arm_ids.zip context_vectors)).1 = _
  exact predictRaw_fst pinv _ w.store []

lemma reachable_inv {nf : ℕ} {w : World nf} (hw : Reachable w) :
    StoreInv w.store ∧ ∀ d, w.disk = some d → BlobInv d := by
  induction hw with
  | init alpha h =>
    refine ⟨⟨h, fun arm => Iff.rfl, fun arm M hM => by cases hM⟩, fun d hd => by cases hd⟩
  | predictStep pinv w ids xs hw ih =>
    obtain ⟨hs, hd⟩ := ih
    refine ⟨?_, fun d h => hd d h⟩
    rw [worldPredict_fst_store]
    exact storeInv_foldl_getOrInit _ hs
  | updateStep w arm x r hw ih =>
    obtain ⟨hs, hd⟩ := ih
    have hs' := storeInv_updateArm hs arm x r
    refine ⟨hs', fun d h => ?_⟩
    cases h
    exact ⟨hs'.2.1, hs'.2.2⟩
  | restart alpha h w hw ih =>
    obtain ⟨hs, hd⟩ := ih
    refine ⟨?_, fun d hdisk => hd d hdisk⟩
    show StoreInv (loadModel (initStore alpha) w.disk)
    cases hdisk : w.disk with
    | none => exact ⟨h, fun arm => Iff.rfl, fun arm M hM => by cases hM⟩
    | some d =>
      have hb := hd d hdisk
      exact ⟨h, hb.1, hb.2⟩

lemma posDef_isUnit_det {nf : ℕ} {A : Mat nf} (hA : A.PosDef) : IsUnit A.det :=
  isUnit_iff_ne_zero.mpr hA.det_pos.ne'

lemma dotProduct_inv_nonneg {nf : ℕ} {A : Mat nf} (hA : A.PosDef) (x : Vec nf) :
    0 ≤ x ⬝ᵥ (A⁻¹ *ᵥ x) := by
  have h := hA.inv.posSemidef.2 x
  rwa [show star x = x from funext fun i => by simp] at h

lemma vecMulVec_mul_mul {nf : ℕ} (x : Vec nf) (M : Mat nf) :
    Matrix.vecMulVec x x * M * Matrix.vecMulVec x x
      = (x ⬝ᵥ (M *ᵥ x)) • Matrix.vecMulVec x x := by
  ext i j
  simp only [Matrix.mul_apply, Matrix.vecMulVec_apply, Matrix.smul_apply, smul_eq_mul,
    Matrix.mulVec, dotProduct, Finset.sum_mul, Finset.mul_sum]
  rw [Finset.sum_comm]
  exact Finset.sum_congr rfl fun k _ => Finset.sum_congr rfl fun l _ => by ring

lemma shermanMorrison {nf : ℕ} {A : Mat nf} (hA : A.PosDef) (x : Vec nf) :
    (A + Matrix.vecMulVec x x)⁻¹
      = A⁻¹ - (1 + x ⬝ᵥ (A⁻¹ *ᵥ x))⁻¹ • (A⁻¹ * Matrix.vecMulVec x x * A⁻¹) := by
  set X := Matrix.vecMulVec x x with hX
  set q := x ⬝ᵥ (A⁻¹ *ᵥ x) with hq
  have hq0 : 0 ≤ q := dotProduct_inv_nonneg hA x
  have h1q : (0 : ℝ) < 1 + q := by linarith
  have hdet : IsUnit A.det := posDef_isUnit_det hA
  apply Matrix.inv_eq_right_inv
  have hAAinv : A * A⁻¹ = 1 := Matrix.mul_nonsing_inv A hdet
  have hXAX : X * A⁻¹ * X = q • X := by
    rw [hX]
    exact vecMulVec_mul_mul x A⁻¹
  rw [Matrix.add_mul, Matrix.mul_sub, Matrix.mul_sub, hAAinv, Matrix.mul_smul,
    Matrix.mul_smul]
  have e1 : A * (A⁻¹ * X * A⁻¹) = X * A⁻¹ := by
    rw [← Matrix.mul_assoc, ← Matrix.mul_assoc, hAAinv, Matrix.one_mul]
  have e2 : X * (A⁻¹ * X * A⁻¹) = q • (X * A⁻¹) := by
    rw [← Matrix.mul_assoc, ← Matrix.mul_assoc, hXAX, Matrix.smul_mul]
  rw [e1, e2, smul_smul]
  have e3 : (1 + q)⁻¹ • (X * A⁻¹) + ((1 + q)⁻¹ * q) • (X * A⁻¹) = X * A⁻¹ := by
    rw [← add_smul]
    have hcoef : (1 + q)⁻¹ + (1 + q)⁻¹ * q = 1 := by
      field_simp
    rw [hcoef, one_smul]
  have e4 : 1 - (1 + q)⁻¹ • (X * A⁻¹) + (X * A⁻¹ - ((1 + q)⁻¹ * q) • (X * A⁻¹))
      = 1 + (X * A⁻¹ - ((1 + q)⁻¹ • (X * A⁻¹) + ((1 + q)⁻¹ * q) • (X * A⁻¹))) := by
    abel
  rw [e4, e3, sub_self, add_zero]

lemma quad_shrinks {nf : ℕ} {A : Mat nf} (hA : A.PosDef) (x : Vec nf) :
    x ⬝ᵥ ((A + Matrix.vecMulVec x x)⁻¹ *ᵥ x) ≤ x ⬝ᵥ (A⁻¹ *ᵥ x) := by
  have hq0 : 0 ≤ x ⬝ᵥ (A⁻¹ *ᵥ x) := dotProduct_inv_nonneg hA x
  rw [shermanMorrison hA x, Matrix.sub_mulVec, Matrix.smul_mulVec_assoc]
  have e : (A⁻¹ * Matrix.vecMulVec x x * A⁻¹) *ᵥ x
      = (x ⬝ᵥ (A⁻¹ *ᵥ x)) • (A⁻¹ *ᵥ x) := by
    rw [← Matrix.mulVec_mulVec, ← Matrix.mulVec_mulVec, vecMulVec_mulVec_eq,
      Matrix.mulVec_smul]
  rw [e, dotProduct_sub, dotProduct_smul, dotProduct_smul, smul_eq_mul, smul_eq_mul]
  have hnn : 0 ≤ (1 + x ⬝ᵥ (A⁻¹ *ᵥ x))⁻¹ * (x ⬝ᵥ (A⁻¹ *ᵥ x) * (x ⬝ᵥ (A⁻¹ *ᵥ x))) := by
    positivity
  linarith

lemma scoreDesc_iff (a b : ScoreResult) : scoreDesc a b = true ↔ b.score ≤ a.score := by
  unfold scoreDesc
  exact decide_eq_true_iff

lemma scoreDesc_trans : ∀ a b c : ScoreResult,
    scoreDesc a b → scoreDesc b c → scoreDesc a c := by
  intro a b c hab hbc
  rw [scoreDesc_iff] at hab hbc ⊢
  exact le_trans hbc hab

lemma scoreDesc_total : ∀ a b : ScoreResult, scoreDesc a b || scoreDesc b a := by
  intro a b
  rw [Bool.or_eq_true, scoreDesc_iff, scoreDesc_iff]
  exact (le_total b.score a.score)

lemma predictRaw_snd_length {nf : ℕ} (pinv : Mat nf → Mat nf)
    (pairs : List (String × Vec nf)) (s : Store nf) (acc : List ScoreResult) :
    ((pairs.foldl (predictStep pinv) (s, acc)).2).length = acc.length + pairs.length := by
  induction pairs generalizing s acc with
  | nil => simp
  | cons p rest ih =>
    rw [List.foldl_cons,
      show predictStep pinv (s, acc) p
        = (getOrInitArm s p.1, acc ++ [scoreArm pinv (getOrInitArm s p.1) p.1 p.2])
        from rfl,
      ih]
    simp only [List.length_append, List.length_cons, List.length_nil]
    omega

lemma predictRaw_snd_map_arm {nf : ℕ} (pinv : Mat nf → Mat nf)
    (pairs : List (String × Vec nf)) (s : Store nf) (acc : List ScoreResult) :
    ((pairs.foldl (predictStep pinv) (s, acc)).2).map (fun sc => sc.arm)
      = acc.map (fun sc => sc.arm) ++ pairs.map (fun p => p.1) := by
  induction pairs generalizing s acc with
  | nil => simp
  | cons p rest ih =>
    rw [List.foldl_cons,
      show predictStep pinv (s, acc) p
        = (getOrInitArm s p.1, acc ++ [scoreArm pinv (getOrInitArm s p.1) p.1 p.2])
        from rfl,
      ih]
    simp [scoreArm]

end MLEngineLemmas

open MLEngineLemmas

/-- C8: for every arm, feature vector `x` and real reward `r` — any real number,
accepted verbatim, no clamping — `update` replaces the arm's state with exactly
`A + x·xᵀ` and `b + r·x`, where `(A, b)` is the arm's (lazily initialised)
state before the increments, and leaves every other arm unchanged. -/
theorem update_rule_exact {nf : ℕ} (s : Store nf) (arm : String) (x : Vec nf) (r : ℝ) :
    (updateArm s arm x r).A arm
        = some ((((getOrInitArm s arm).A arm).getD 1) + Matrix.vecMulVec x x)
    ∧ (updateArm s arm x r).b arm
        = some ((((getOrInitArm s arm).b arm).getD 0) + r • x)
    ∧ ∀ j, j ≠ arm →
        (updateArm s arm x r).A j = s.A j ∧ (updateArm s arm x r).b j = s.b j := by
  refine ⟨?_, ?_, ?_⟩
  · unfold updateArm
    simp [Function.update_same]
  · unfold updateArm
    simp [Function.update_same]
  · intro j hj
    unfold updateArm
    constructor
    · simp [Function.update_noteq hj, getOrInitArm_A_ne s arm j hj]
    · simp [Function.update_noteq hj, getOrInitArm_b_ne s arm j hj]

/-- Witness for update_rule_exact at arm "a", `x = [2]`, reward 2, checking the
non-interference part at the distinct arm "b". -/
theorem update_rule_exact_witness :
    ("b" : String) ≠ "a"
    ∧ (updateArm (initStore (3/2) : Store 1) "a" ![2] 2).A "b" = none :=
  ⟨by decide,
    ((update_rule_exact (initStore (3/2) : Store 1) "a" ![2] 2).2.2 "b"
      (by decide)).1.trans rfl⟩

/-- C5: the persistence round-trip: a store written by `save_model` and read
back through the `__init__`/`load_model` path reproduces every arm's `A` and
`b` exactly, and `predict` afterwards returns identical results on identical
inputs. -/
theorem persistence_roundtrip {nf : ℕ} (pinv : Mat nf → Mat nf) (s : Store nf) :
    (worldInit s.alpha (some (saveModel s))).store.A = s.A
    ∧ (worldInit s.alpha (some (saveModel s))).store.b = s.b
    ∧ ∀ arm_ids context_vectors,
        predict pinv (worldInit s.alpha (some (saveModel s))).store
            arm_ids context_vectors
          = predict pinv s arm_ids context_vectors := by
  have h : (worldInit s.alpha (some (saveModel s))).store = s := by
    cases s
    rfl
  rw [h]
  exact ⟨rfl, rfl, fun _ _ => rfl⟩

/-- C1 (code bug): the `/train` endpoint records the feedback in the external
decision_logs table and returns success, but never performs the LinUCB online
update: at the concrete input below the model state comes back unchanged and
the trained arm still has no state at all, whereas the update rule would have
produced `A = I + x·xᵀ` for that arm. -/
theorem train_endpoint_does_not_update :
    (trainFeedback (worldInit (3/2) none : World 6) []
        ⟨"rec-1", "E1", 1⟩).1 = worldInit (3/2) none
    ∧ ((trainFeedback (worldInit (3/2) none : World 6) []
        ⟨"rec-1", "E1", 1⟩).1).store.A "E1" = none
    ∧ (updateArm (worldInit (3/2) none : World 6).store "E1" (fun _ => 1) 1).A "E1"
        = some ((1 : Mat 6) + Matrix.vecMulVec (fun _ => 1) (fun _ => 1)) := by
  refine ⟨rfl, rfl, ?_⟩
  rw [updateArm_A_self]
  rfl

/-- C2 (counterexample): on a store of dimension 2, `update` with the length-1
vector `[3]` does not fail at all: numpy broadcasts the 1×1 outer product over
the whole 2×2 matrix `A` (which really changes: the off-diagonal becomes 9)
and the scalar reward product over `b` — a silent pad, not a typed
ValidationError. -/
theorem update_length_one_broadcasts :
    (numpyUpdateArm (initStore (3/2) : Store 2) "a" [3] 1).isOk = true
    ∧ ((numpyUpdateArm (initStore (3/2) : Store 2) "a" [3] 1).toOption.map
        (fun t => t.A "a"))
        = some (some ((1 : Mat 2) + Matrix.of fun _ _ => (3 : ℝ) * 3))
    ∧ ((numpyUpdateArm (initStore (3/2) : Store 2) "a" [3] 1).toOption.map
        (fun t => t.b "a"))
        = some (some (fun i => (0 : Vec 2) i + 1 * 3))
    ∧ (1 : Mat 2) + Matrix.of (fun _ _ => (3 : ℝ) * 3) ≠ 1 := by
  refine ⟨rfl, rfl, rfl, ?_⟩
  intro h
  have h01 := congrFun (congrFun h 0) 1
  rw [Matrix.add_apply, Matrix.of_apply,
    Matrix.one_apply_ne (by decide : (0 : Fin 2) ≠ 1)] at h01
  norm_num at h01

/-- C2 (amended): the code performs no dimension validation and raises no typed
error: the score path of `predict` with a vector of length ≠ n fails with an
untyped numpy ValueError from the dot product; `update` with a vector of
length neither n nor 1 fails the same way from broadcasting; and `update` with
a length-1 vector succeeds silently by broadcasting. -/
theorem dimension_mismatch_behavior {nf : ℕ} (pinv : Mat nf → Mat nf) (s : Store nf)
    (arm : String) (x : List ℝ) (r : ℝ) (hx : x.length ≠ nf) :
    numpyScoreArm pinv s arm x = Except.error NumpyError.valueError
    ∧ numpyPredict pinv s [arm] [x] = Except.error NumpyError.valueError
    ∧ (x.length ≠ 1 → numpyUpdateArm s arm x r = Except.error NumpyError.valueError)
    ∧ (x.length = 1 → (numpyUpdateArm s arm x r).isOk = true) := by
  have h1 : ∀ t : Store nf,
      numpyScoreArm pinv t arm x = Except.error NumpyError.valueError := by
    intro t
    unfold numpyScoreArm
    rw [if_neg hx]
  refine ⟨h1 s, ?_, ?_, ?_⟩
  · simp [numpyPredict, numpyPredictGo, h1]
  · intro hx1
    unfold numpyUpdateArm
    rw [if_neg hx, if_neg hx1]
  · intro hx1
    unfold numpyUpdateArm
    rw [if_neg hx, if_pos hx1]
    rfl

/-- Witness for dimension_mismatch_behavior: a length-3 vector against a
2-feature store. -/
theorem dimension_mismatch_behavior_witness :
    ([(1 : ℝ), 2, 3].length ≠ 2)
    ∧ numpyScoreArm (fun A => A⁻¹) (initStore (3/2) : Store 2) "a" [1, 2, 3]
        = Except.error NumpyError.valueError :=
  ⟨by decide,
    (dimension_mismatch_behavior (fun A => A⁻¹) (initStore (3/2) : Store 2) "a"
      [1, 2, 3] 0 (by decide)).1⟩

/-- C6 (counterexample): with required-skill list `["A", "A", "B"]` (a
duplicated entry) and candidate skills `["A"]`, the source counts over the
list and returns 2/3, while the spec's set-based fraction |required ∩ held| /
|required| is 1/2. -/
theorem skill_overlap_list_vs_set :
    encodeSkills ["A", "A", "B"] ["A"] = 2 / 3
    ∧ specSkillOverlap ["A", "A", "B"] ["A"] = 1 / 2
    ∧ encodeSkills ["A", "A", "B"] ["A"] ≠ specSkillOverlap ["A", "A", "B"] ["A"] := by
  have h1 : encodeSkills ["A", "A", "B"] ["A"] = 2 / 3 := by
    unfold encodeSkills
    rw [if_neg (by decide),
      show (["A", "A", "B"].countP fun s => decide (s ∈ (["A"] : List String))) = 2
        from rfl]
    norm_num
  have h2 : specSkillOverlap ["A", "A", "B"] ["A"] = 1 / 2 := by
    unfold specSkillOverlap
    rw [if_neg (by decide),
      show ((["A", "A", "B"] : List String).toFinset
          ∩ (["A"] : List String).toFinset).card = 1 from rfl,
      show (["A", "A", "B"] : List String).toFinset.card = 2 from rfl]
    norm_num
  refine ⟨h1, h2, ?_⟩
  rw [h1, h2]
  norm_num

/-- C6 (amended): the encoder computes the fraction over the required-skill
LIST with multiplicity (1.0 when the list is empty); whenever the required
list has no duplicates — so it faithfully represents the required set — the
value coincides with the spec's set-based fraction.  The skill feature is
component 5 of the built 6-vector. -/
theorem skill_overlap_nodup_eq_spec (ts es : List String) (h : ts.Nodup) :
    encodeSkills ts es = specSkillOverlap ts es
    ∧ ∀ (task : TaskFeatures) (emp : EmployeeCandidate),
        buildContextVector task emp 5 = encodeSkills task.skills_required emp.skills := by
  constructor
  · by_cases he : ts = []
    · subst he
      unfold encodeSkills specSkillOverlap
      simp
    · unfold encodeSkills specSkillOverlap
      rw [if_neg he, if_neg (by rwa [List.toFinset_eq_empty_iff])]
      have hcard : ts.toFinset.card = ts.length := List.toFinset_card_of_nodup h
      have hcount : ts.countP (fun s => decide (s ∈ es))
          = (ts.toFinset ∩ es.toFinset).card := by
        rw [List.countP_eq_length_filter]
        have hnd : (ts.filter (fun s => decide (s ∈ es))).Nodup := h.filter _
        rw [← List.toFinset_card_of_nodup hnd, List.toFinset_filter]
        congr 1
        rw [← Finset.filter_mem_eq_inter]
        apply Finset.filter_congr
        intro a _
        simp [List.mem_toFinset]
      rw [hcount, hcard]
  · intro task emp
    rfl

/-- Witness for skill_overlap_nodup_eq_spec on a duplicate-free skill list. -/
theorem skill_overlap_nodup_eq_spec_witness :
    (["React"] : List String).Nodup
    ∧ encodeSkills ["React"] ["React"] = specSkillOverlap ["React"] ["React"] :=
  ⟨by decide, (skill_overlap_nodup_eq_spec ["React"] ["React"] (by decide)).1⟩

/-- C3: for an arm never scored or updated before (absent from `A`) and any
vector `x`, scoring initialises the arm to `(I, 0)` and yields `mean = 0`,
`uncertainty = α·sqrt(Σ xᵢ²)` — that is, α times the Euclidean norm of `x` —
and combined score `mean + uncertainty = α·‖x‖`; the single-arm `predict`
call returns exactly that score entry. -/
theorem cold_start_score {nf : ℕ} (pinv : Mat nf → Mat nf) (s : Store nf)
    (arm : String) (x : Vec nf) (hA : s.A arm = none) :
    armAinv pinv (((getOrInitArm s arm).A arm).getD 1) = 1
    ∧ armMean (armTheta (armAinv pinv (((getOrInitArm s arm).A arm).getD 1))
        (((getOrInitArm s arm).b arm).getD 0)) x = 0
    ∧ armUncertainty s.alpha (armAinv pinv (((getOrInitArm s arm).A arm).getD 1)) x
        = s.alpha * Real.sqrt (∑ i, x i ^ 2)
    ∧ (scoreArm pinv (getOrInitArm s arm) arm x).score
        = s.alpha * Real.sqrt (∑ i, x i ^ 2)
    ∧ (predict pinv s [arm] [x]).2 = [scoreArm pinv (getOrInitArm s arm) arm x]
    ∧ Real.sqrt (∑ i, x i ^ 2)
        = ‖((WithLp.equiv 2 (Vec nf)).symm x : EuclideanSpace ℝ (Fin nf))‖ := by
  have hA1 : ((getOrInitArm s arm).A arm).getD 1 = 1 := by
    rw [getOrInitArm_A_self, hA]
    rfl
  have hb0 : ((getOrInitArm s arm).b arm).getD 0 = 0 := by
    rw [getOrInitArm_b_self_of_none s arm hA]
    rfl
  have hinv : armAinv pinv (1 : Mat nf) = 1 := by
    unfold armAinv
    rw [if_pos (by rw [Matrix.det_one]; exact isUnit_one), inv_one]
  have hdot : x ⬝ᵥ x = ∑ i, x i ^ 2 := by
    simp [dotProduct, pow_two]
  have hunc : armUncertainty s.alpha (1 : Mat nf) x
      = s.alpha * Real.sqrt (∑ i, x i ^ 2) := by
    unfold armUncertainty
    rw [Matrix.vecMul_one, hdot]
  have hmean : armMean (armTheta (1 : Mat nf) 0) x = 0 := by
    unfold armMean armTheta
    rw [Matrix.mulVec_zero, zero_dotProduct]
  refine ⟨by rw [hA1, hinv], by rw [hA1, hb0, hinv]; exact hmean, ?_, ?_, ?_, ?_⟩
  · rw [hA1, hinv]
    exact hunc
  · show armMean (armTheta (armAinv pinv (((getOrInitArm s arm).A arm).getD 1))
        (((getOrInitArm s arm).b arm).getD 0)) x
      + armUncertainty (getOrInitArm s arm).alpha
          (armAinv pinv (((getOrInitArm s arm).A arm).getD 1)) x
      = s.alpha * Real.sqrt (∑ i, x i ^ 2)
    rw [hA1, hb0, hinv, hmean, getOrInitArm_alpha, hunc, zero_add]
  · simp [predict, predictRaw, predictStep]
  · rw [EuclideanSpace.norm_eq]
    simp [Real.norm_eq_abs, sq_abs]

/-- Witness for cold_start_score: a fresh 1-dimensional store with α = 3/2 and
`x = [1]` scores exactly 3/2. -/
theorem cold_start_score_witness :
    (initStore (3/2) : Store 1).A "a" = none
    ∧ (scoreArm (fun A => A⁻¹) (getOrInitArm (initStore (3/2) : Store 1) "a")
        "a" ![1]).score = 3/2 := by
  refine ⟨rfl, ?_⟩
  have h := (cold_start_score (fun A => A⁻¹) (initStore (3/2) : Store 1) "a"
    ![1] rfl).2.2.2.1
  rw [h]
  norm_num [initStore, Fin.sum_univ_one, Real.sqrt_one]

/-- C9: on every state reachable by any sequence of predict/update calls (and
restarts) from a fresh store, every stored covariance matrix is symmetric
positive-definite — the identity plus a sum of rank-1 outer products — hence
invertible in exact arithmetic, so the pseudo-inverse fallback branch of
predict is never taken: `armAinv` returns the true inverse whatever the
fallback function is. -/
theorem reachable_posdef_no_fallback {nf : ℕ} (w : World nf) (hw : Reachable w)
    (arm : String) (M : Mat nf) (hM : w.store.A arm = some M) :
    M.PosDef ∧ IsUnit M.det ∧ ∀ pinv, armAinv pinv M = M⁻¹ := by
  have hpos := (reachable_inv hw).1.2.2 arm M hM
  refine ⟨hpos, posDef_isUnit_det hpos, fun pinv => ?_⟩
  unfold armAinv
  rw [if_pos (posDef_isUnit_det hpos)]

/-- Witness for reachable_posdef_no_fallback: after one predict on a fresh
store the arm holds the identity matrix, which is positive-definite with
invertible determinant. -/
theorem reachable_posdef_no_fallback_witness :
    ((worldPredict (fun A => A⁻¹) (worldInit (3/2) none : World 1)
        ["a"] [![1]]).1.store.A "a" = some 1)
    ∧ (1 : Mat 1).PosDef ∧ IsUnit (1 : Mat 1).det :=
  ⟨rfl,
    (fun hh => ⟨hh.1, hh.2.1⟩)
      (reachable_posdef_no_fallback _
        (Reachable.predictStep (fun A => A⁻¹) _ ["a"] [![1]]
          (Reachable.init (3/2) (by norm_num)))
        "a" 1 rfl)⟩

/-- C10: the store keeps `A` and `b` in two separate dicts keyed by arm id; on
every reachable state their key sets coincide, and they still coincide after
a predict, an update, or a restart-with-load; predict itself inserts
identity/zero entries for previously unseen arm identifiers but leaves the
disk file untouched. -/
theorem maps_synced_predict_inserts {nf : ℕ} (pinv : Mat nf → Mat nf) (w : World nf)
    (hw : Reachable w) (arm_ids : List String) (context_vectors : List (Vec nf))
    (arm : String) (x : Vec nf) (r : ℝ) (alpha : ℝ) (halpha : 0 ≤ alpha) :
    (∀ j, (w.store.A j).isSome ↔ (w.store.b j).isSome)
    ∧ (∀ j, (((worldPredict pinv w arm_ids context_vectors).1.store.A j).isSome
        ↔ ((worldPredict pinv w arm_ids context_vectors).1.store.b j).isSome))
    ∧ (∀ j, (((worldUpdate w arm x r).store.A j).isSome
        ↔ ((worldUpdate w arm x r).store.b j).isSome))
    ∧ (∀ j, (((worldInit alpha w.disk : World nf).store.A j).isSome
        ↔ ((worldInit alpha w.disk : World nf).store.b j).isSome))
    ∧ (∀ p ∈ arm_ids.zip context_vectors, w.store.A p.1 = none →
        (worldPredict pinv w arm_ids context_vectors).1.store.A p.1 = some 1
        ∧ (worldPredict pinv w arm_ids context_vectors).1.store.b p.1 = some 0)
    ∧ (worldPredict pinv w arm_ids context_vectors).1.disk = w.disk := by
  refine ⟨(reachable_inv hw).1.2.1,
    (reachable_inv (Reachable.predictStep pinv w arm_ids context_vectors hw)).1.2.1,
    (reachable_inv (Reachable.updateStep w arm x r hw)).1.2.1,
    (reachable_inv (Reachable.restart alpha halpha w hw)).1.2.1,
    ?_, rfl⟩
  intro p hp hnone
  have hsome := foldl_getOrInit_mem_isSome (arm_ids.zip context_vectors) w.store p hp
  rcases foldl_getOrInit_A (arm_ids.zip context_vectors) w.store p.1
    with ⟨h1, h2⟩ | ⟨h0, h1, h2⟩
  · exfalso
    rw [h1, hnone] at hsome
    cases hsome
  · constructor
    · rw [worldPredict_fst_store, h1]
    · rw [worldPredict_fst_store, h2]

/-- Witness for maps_synced_predict_inserts: predicting an unseen arm on a
fresh store inserts its zero reward vector. -/
theorem maps_synced_predict_inserts_witness :
    ((worldInit (3/2) none : World 1).store.A "a" = none)
    ∧ (("a", ![(1 : ℝ)]) ∈ ((["a"] : List String).zip [![(1 : ℝ)]]))
    ∧ ((worldPredict (fun A => A⁻¹) (worldInit (3/2) none : World 1)
        ["a"] [![1]]).1.store.b "a" = some 0) := by
  have hmem : ("a", ![(1 : ℝ)]) ∈ ((["a"] : List String).zip [![(1 : ℝ)]]) :=
    List.mem_singleton.mpr rfl
  exact ⟨rfl, hmem,
    ((maps_synced_predict_inserts (fun A => A⁻¹) _
        (Reachable.init (3/2) (by norm_num)) ["a"] [![1]] "a" ![1] 1 (3/2)
        (by norm_num)).2.2.2.2.1 ("a", ![1]) hmem rfl).2⟩

/-- C4: updating an arm with any vector `x` and any reward never increases the
uncertainty a rescoring of the same arm with the same `x` reports: from any
reachable state, α·sqrt(xᵀ(A + xxᵀ)⁻¹x) ≤ α·sqrt(xᵀA⁻¹x), where `A` is the
arm's (lazily initialised) matrix before the update. -/
theorem update_shrinks_uncertainty {nf : ℕ} (pinv pinv' : Mat nf → Mat nf)
    (w : World nf) (hw : Reachable w) (arm : String) (x : Vec nf) (r : ℝ) :
    armUncertainty (worldUpdate w arm x r).store.alpha
        (armAinv pinv' (((worldUpdate w arm x r).store.A arm).getD 1)) x
      ≤ armUncertainty w.store.alpha
        (armAinv pinv (((getOrInitArm w.store arm).A arm).getD 1)) x := by
  obtain ⟨⟨halpha, hsync, hpos⟩, -⟩ := reachable_inv hw
  set A0 := ((w.store.A arm).getD 1) with hA0
  have hA0pos : A0.PosDef := by
    cases hws : w.store.A arm with
    | none =>
      rw [hA0, hws]
      exact Matrix.PosDef.one
    | some M =>
      rw [hA0, hws]
      exact hpos arm M hws
  have hpre : ((getOrInitArm w.store arm).A arm).getD 1 = A0 := by
    rw [getOrInitArm_A_self]
    rfl
  have hupd : (((worldUpdate w arm x r).store.A arm).getD 1)
      = A0 + Matrix.vecMulVec x x := by
    show ((updateArm w.store arm x r).A arm).getD 1 = _
    rw [updateArm_A_self]
    rfl
  have halphaU : (worldUpdate w arm x r).store.alpha = w.store.alpha :=
    updateArm_alpha w.store arm x r
  have hA1pos : (A0 + Matrix.vecMulVec x x).PosDef :=
    Matrix.PosDef.add_posSemidef hA0pos (posSemidef_vecMulVec x)
  rw [hpre, hupd, halphaU]
  have e0 : armAinv pinv A0 = A0⁻¹ := by
    unfold armAinv
    rw [if_pos (posDef_isUnit_det hA0pos)]
  have e1 : armAinv pinv' (A0 + Matrix.vecMulVec x x)
      = (A0 + Matrix.vecMulVec x x)⁻¹ := by
    unfold armAinv
    rw [if_pos (posDef_isUnit_det hA1pos)]
  rw [e0, e1]
  unfold armUncertainty
  apply mul_le_mul_of_nonneg_left _ halpha
  apply Real.sqrt_le_sqrt
  rw [← Matrix.dotProduct_mulVec, ← Matrix.dotProduct_mulVec]
  exact quad_shrinks hA0pos x

/-- Witness for update_shrinks_uncertainty on a fresh reachable store. -/
theorem update_shrinks_uncertainty_witness :
    Reachable (worldInit (3/2) none : World 1)
    ∧ armUncertainty
        (worldUpdate (worldInit (3/2) none : World 1) "a" ![0] 1).store.alpha
        (armAinv (fun A => A⁻¹)
          (((worldUpdate (worldInit (3/2) none : World 1) "a" ![0] 1).store.A
              "a").getD 1)) ![0]
      ≤ armUncertainty (worldInit (3/2) none : World 1).store.alpha
        (armAinv (fun A => A⁻¹)
          (((getOrInitArm (worldInit (3/2) none : World 1).store "a").A
              "a").getD 1)) ![0] :=
  ⟨Reachable.init (3/2) (by norm_num),
    update_shrinks_uncertainty (fun A => A⁻¹) (fun A => A⁻¹) _
      (Reachable.init (3/2) (by norm_num)) "a" ![0] 1⟩

/-- C7: predict returns exactly one ScoreResult per input candidate (the
unsorted score list carries the input identifiers in order and the output is
a permutation of it of the same length), sorted by combined score descending,
with equal-score entries kept in their input order (stability), and an empty
candidate list yields an empty result rather than an error. -/
theorem predict_sorted_stable {nf : ℕ} (pinv : Mat nf → Mat nf) (s : Store nf)
    (arm_ids : List String) (context_vectors : List (Vec nf))
    (hlen : context_vectors.length = arm_ids.length) :
    ((predict pinv s arm_ids context_vectors).2).length = arm_ids.length
    ∧ ((predictRaw pinv s (arm_ids.zip context_vectors)).2).map (fun sc => sc.arm)
        = arm_ids
    ∧ ((predict pinv s arm_ids context_vectors).2).Perm
        ((predictRaw pinv s (arm_ids.zip context_vectors)).2)
    ∧ ((predict pinv s arm_ids context_vectors).2).Pairwise
        (fun a b => b.score ≤ a.score)
    ∧ (∀ a b : ScoreResult, a.score = b.score →
        List.Sublist [a, b] ((predictRaw pinv s (arm_ids.zip context_vectors)).2) →
        List.Sublist [a, b] ((predict pinv s arm_ids context_vectors).2))
    ∧ (predict pinv s [] ([] : List (Vec nf))).2 = [] := by
  have hraw : ((predictRaw pinv s (arm_ids.zip context_vectors)).2).length
      = arm_ids.length := by
    show (((arm_ids.zip context_vectors).foldl (predictStep pinv) (s, [])).2).length = _
    rw [predictRaw_snd_length]
    simp [List.length_zip, hlen]
  refine ⟨?_, ?_, ?_, ?_, ?_, ?_⟩
  · show (((predictRaw pinv s (arm_ids.zip context_vectors)).2).mergeSort
        scoreDesc).length = _
    rw [List.length_mergeSort]
    exact hraw
  · show (((arm_ids.zip context_vectors).foldl (predictStep pinv) (s, [])).2).map
        (fun sc => sc.arm) = arm_ids
    rw [predictRaw_snd_map_arm]
    simp only [List.map_nil, List.nil_append]
    exact List.map_fst_zip arm_ids context_vectors (le_of_eq hlen.symm)
  · exact List.mergeSort_perm _ _
  · have hs := List.sorted_mergeSort scoreDesc_trans scoreDesc_total
      ((predictRaw pinv s (arm_ids.zip context_vectors)).2)
    exact hs.imp fun hab => (scoreDesc_iff _ _).mp hab
  · intro a b hab hsub
    exact List.pair_sublist_mergeSort scoreDesc_trans scoreDesc_total
      ((scoreDesc_iff a b).mpr (le_of_eq hab.symm)) hsub
  · show (((([] : List String).zip ([] : List (Vec nf))).foldl (predictStep pinv)
        (s, [])).2).mergeSort scoreDesc = []
    rw [List.zip_nil_left, List.foldl_nil, List.mergeSort_nil]

/-- Witness for predict_sorted_stable: two candidates on a fresh store. -/
theorem predict_sorted_stable_witness :
    ([![(1 : ℝ)], ![0]].length = (["a", "b"] : List String).length)
    ∧ ((predict (fun A => A⁻¹) (initStore (3/2) : Store 1) ["a", "b"]
        [![1], ![0]]).2).length = (["a", "b"] : List String).length :=
  ⟨rfl, (predict_sorted_stable (fun A => A⁻¹) (initStore (3/2) : Store 1)
      ["a", "b"] [![1], ![0]] rfl).1⟩

end MLEngine
